import Mathlib

/-!
Verification of the account-hierarchy resolver of `src/account.py`
(`account_structure` and `parse_account_hierarchy`), shallowly embedded.

The embedding mirrors the Python source:
* `CustomerClient` is the row type returned by the query
  (`customer_client` with the selected fields).
* `GAccount` is the dataclass produced by the resolver.
* The work loop pops account ids FIFO (`pop(0)` / append at the end),
  issues one query per id, folds the response rows in order
  (`processRow`), and accumulates a parent-id keyed, insertion-ordered
  mapping (`ChildMap`, an association list mirroring the Python dict).
* `runLoop` carries an explicit fuel (the Python loop has no bound of
  its own) and a ghost trace of the ids it queried, in order.
* `parseNode` / `parseList` embed the recursive
  `parse_account_hierarchy`; the fuel bounds the recursion depth
  exactly as the Python call stack does (the `depth` argument of the
  Python function is dead: it is threaded as `depth + 1` but never
  read, so it is omitted here).
* A query failure (`GoogleAdsException` from `search`) escapes the loop
  and, through the `handle_google_ads_exception` decorator, terminates
  the run; it is embedded as `Except.error` short-circuiting `runLoop`.
-/

/-- The fields of `customer_client` selected by the query in
`account_structure`. -/
structure CustomerClient where
  id : Nat
  descriptive_name : String
  resource_name : String
  client_customer : String
  manager : Bool
  currency_code : String
  level : Nat
  time_zone : String
deriving DecidableEq

/-- The `GAccount` dataclass of `src/account.py`. -/
structure GAccount where
  id : Nat
  name : String
  resource_name : String
  account_customer : String
  manager : Bool
  currency_code : String
  level : Nat
  time_zone : String
deriving DecidableEq

/-- The `GAccount(...)` construction inside `parse_account_hierarchy`:
every field is copied from the row, in particular `level` is the row's
`level` field (not the recursion depth). -/
def mkGAccount (c : CustomerClient) : GAccount :=
  ⟨c.id, c.descriptive_name, c.resource_name, c.client_customer,
   c.manager, c.currency_code, c.level, c.time_zone⟩

/-- The dict `customer_ids_to_child_accounts`: a Python dict from parent id to the
ordered list of child rows, embedded as an insertion-ordered association
list. -/
abbrev ChildMap := List (Nat × List CustomerClient)

/-- Dict key membership (`account_id in customer_ids_to_child_accounts`). -/
def hasKey (m : ChildMap) (k : Nat) : Bool :=
  m.any (fun p => p.1 == k)

/-- Dict lookup. -/
def lookupChildren (m : ChildMap) (k : Nat) : Option (List CustomerClient) :=
  (m.find? (fun p => p.1 == k)).map Prod.snd

/-- The child list recorded for `k` (empty when `k` is not a key). -/
def childrenAt (m : ChildMap) (k : Nat) : List CustomerClient :=
  (lookupChildren m k).getD []

/-- Python `if account_id not in d: d[account_id] = []` followed by
`d[account_id].append(c)`. -/
def appendChild (m : ChildMap) (k : Nat) (c : CustomerClient) : ChildMap :=
  match m with
  | [] => [(k, [c])]
  | (k', cs) :: rest =>
      if k' = k then (k', cs ++ [c]) :: rest
      else (k', cs) :: appendChild rest k c

/-- One iteration of `for googleads_row in response:` while processing the
query for `accountId`.  State: (`root_account_client`,
`customer_ids_to_child_accounts`, `unprocessed_account_ids`). -/
def processRow (accountId : Nat)
    (st : Option CustomerClient × ChildMap × List Nat)
    (row : CustomerClient) :
    Option CustomerClient × ChildMap × List Nat :=
  let (rootO, m, queue) := st
  if row.level = 0 then
    -- `if account_client.level == 0: if root_account_client is None: ...; continue`
    (match rootO with
     | none => some row
     | some r => some r, m, queue)
  else
    let m' := appendChild m accountId row
    -- `if account_client.manager: if (id not in map and level == 1): append`
    if row.manager = true ∧ hasKey m' row.id = false ∧ row.level = 1 then
      (rootO, m', queue ++ [row.id])
    else
      (rootO, m', queue)

/-- Processing one full query response, row by row, in order. -/
def processRows (accountId : Nat) (rows : List CustomerClient)
    (st : Option CustomerClient × ChildMap × List Nat) :
    Option CustomerClient × ChildMap × List Nat :=
  rows.foldl (processRow accountId) st

/-- Result of the `while unprocessed_account_ids:` loop: normal
completion (with the ghost trace of queried ids), a query failure, or
fuel exhaustion (the Python loop is unbounded; `outOfFuel` marks runs
longer than the given fuel). -/
inductive LoopResult where
  | ok (root : Option CustomerClient) (m : ChildMap) (trace : List Nat)
  | fail (e : String)
  | outOfFuel
deriving DecidableEq

/-- The `while unprocessed_account_ids:` loop of `account_structure`.
`queue` is popped at the front; `googleads_service.search` is the
injected capability `q`; its failure aborts the loop. -/
def runLoop (q : Nat → Except String (List CustomerClient)) :
    Nat → List Nat → Option CustomerClient → ChildMap → List Nat → LoopResult
  | _, [], rootO, m, tr => .ok rootO m tr
  | 0, _ :: _, _, _, _ => .outOfFuel
  | fuel + 1, y :: rest, rootO, m, tr =>
      match q y with
      | .error e => .fail e
      | .ok rows =>
          let st := processRows y rows (rootO, m, rest)
          runLoop q fuel st.2.2 st.1 st.2.1 (tr ++ [y])

/-- Flattening of a list of sibling subtrees, left to right, given the
flattening `g` of a single node: `none` (recursion-depth exhaustion)
propagates. -/
def seqParse (g : CustomerClient → Option (List GAccount)) :
    List CustomerClient → Option (List (List GAccount))
  | [] => some []
  | c :: cs =>
      match g c, seqParse g cs with
      | some a, some as' => some (a :: as')
      | _, _ => none

/-- The recursion `parse_account_hierarchy(account_client, account_ids_to_child_accounts)`:
emit the node's record, then recursively flatten each recorded child
subtree, in list order (`accounts.append(...)` followed by
`accounts.extend(parse_account_hierarchy(child, ...))` per child).  The
fuel bounds the recursion depth (the Python recursion has no bound of
its own and can diverge on cyclic maps). -/
def parseNode (m : ChildMap) : Nat → CustomerClient → Option (List GAccount)
  | 0, _ => none
  | fuel + 1, c =>
      match seqParse (parseNode m fuel) (childrenAt m c.id) with
      | none => none
      | some subs => some (mkGAccount c :: subs.flatten)

/-- Flattening of a list of sibling subtrees at a given recursion depth. -/
def parseList (m : ChildMap) (fuel : Nat) :
    List CustomerClient → Option (List (List GAccount)) :=
  seqParse (parseNode m fuel)

/-- Result of `account_structure`: the account list, the
`ValueError("No root customer found...")` branch, a propagated query
failure, or fuel exhaustion. -/
inductive ResolveResult where
  | ok (accounts : List GAccount)
  | noRoot
  | queryFail (e : String)
  | outOfFuel
deriving DecidableEq

/-- The resolver `account_structure(client, login_account_id)`: run the traversal loop
seeded with the root id, then either raise (`noRoot`) or flatten from the
captured root row.  `fuel` bounds the loop, `pfuel` the recursion depth
of the flattening. -/
def account_structure (q : Nat → Except String (List CustomerClient))
    (login_account_id : Nat) (fuel pfuel : Nat) : ResolveResult :=
  match runLoop q fuel [login_account_id] none [] [] with
  | .fail e => .queryFail e
  | .outOfFuel => .outOfFuel
  | .ok rootO m _ =>
      match rootO with
      | none => .noRoot
      | some rc =>
          match parseNode m pfuel rc with
          | none => .outOfFuel
          | some accs => .ok accs

/-- The emitted account list, when resolution completed normally. -/
def resolvedAccounts : ResolveResult → Option (List GAccount)
  | .ok l => some l
  | _ => none

/-- The ghost trace of queried ids, when the loop completed normally. -/
def traceOf : LoopResult → Option (List Nat)
  | .ok _ _ tr => some tr
  | _ => none

/-- Occurrence count with decidable equality. -/
def countOcc {α : Type} [DecidableEq α] (a : α) : List α → Nat
  | [] => 0
  | b :: l => (if b = a then 1 else 0) + countOcc a l

/-- A row recorded somewhere in the child mapping. -/
def rowInMap (m : ChildMap) (r : CustomerClient) : Prop :=
  ∃ p, r ∈ childrenAt m p

/-- Every row recorded in the mapping is a non-level-0 row of some
successful response of `q`. -/
def goodMap (q : Nat → Except String (List CustomerClient)) (m : ChildMap) : Prop :=
  ∀ p r, r ∈ childrenAt m p →
    r.level ≠ 0 ∧ ∃ y rows, q y = Except.ok rows ∧ r ∈ rows

/-- Number of ids of the universe `U` not yet recorded as parent keys. -/
def unkeyedCount (U : Finset Nat) (m : ChildMap) : Nat :=
  (U.filter (fun x => hasKey m x = false)).card

/-- Number of queue entries whose id is already a parent key. -/
def keyedCount (m : ChildMap) (l : List Nat) : Nat :=
  (l.filter (fun x => hasKey m x)).length

/-- The traversal loop terminates from the given state. -/
def LoopTerminates (q : Nat → Except String (List CustomerClient))
    (queue : List Nat) (rootO : Option CustomerClient) (m : ChildMap)
    (tr : List Nat) : Prop :=
  ∃ fuel rootO' m' tr', runLoop q fuel queue rootO m tr = LoopResult.ok rootO' m' tr'

/-- Termination of the loop from every state within measure bounds
`(n1, n2, n3)` over universe `U`. -/
def TermGoal (q : Nat → Except String (List CustomerClient)) (U : Finset Nat)
    (n1 n2 n3 : Nat) : Prop :=
  ∀ queue rootO m tr,
    (∀ x ∈ queue, x ∈ U) → (∀ x, hasKey m x = true → x ∈ U) →
    unkeyedCount U m ≤ n1 → keyedCount m queue ≤ n2 → queue.length ≤ n3 →
    LoopTerminates q queue rootO m tr

/-- Row constructor for concrete test capabilities (fields that the
claims do not inspect are left empty). -/
def row (i lvl : Nat) (mgr : Bool) : CustomerClient :=
  ⟨i, "", "", "", mgr, "", lvl, ""⟩

/-- Scenario of the spec: root `100` (manager) with children `101`
(manager, children `201`, `202`) and `102` (non-manager). -/
def qC1 : Nat → Except String (List CustomerClient) := fun y =>
  if y = 100 then
    Except.ok [row 100 0 true, row 101 1 true, row 102 1 false]
  else if y = 101 then
    Except.ok [row 101 0 true, row 201 1 false, row 202 1 false]
  else Except.ok []

/-- Capability whose responses never contain a level-0 row for the
requested root `100`: the query for `100` returns only a child row, and
the only level-0 row ever returned describes `101`. -/
def qC3 : Nat → Except String (List CustomerClient) := fun y =>
  if y = 100 then Except.ok [row 101 1 true]
  else if y = 101 then Except.ok [row 101 0 false]
  else Except.ok []

/-- Three-level chain `300 → 301 → 302`. -/
def qC4 : Nat → Except String (List CustomerClient) := fun y =>
  if y = 300 then Except.ok [row 300 0 true, row 301 1 true]
  else if y = 301 then Except.ok [row 301 0 true, row 302 1 false]
  else Except.ok []

/-- Response listing child `901` twice for parent `900`. -/
def qC5 : Nat → Except String (List CustomerClient) := fun y =>
  if y = 900 then Except.ok [row 900 0 true, row 901 1 false, row 901 1 false]
  else Except.ok []

/-- Capability that never returns any level-0 row with id `500`. -/
def qC6 : Nat → Except String (List CustomerClient) := fun y =>
  if y = 500 then Except.ok [row 501 1 true]
  else if y = 501 then Except.ok [row 501 0 false]
  else Except.ok []

/-- Manager `101` is reported as a child by both `100` and `102`, but its
own query returns no children, so it is never recorded as a parent key
and is expanded twice. -/
def qC7 : Nat → Except String (List CustomerClient) := fun y =>
  if y = 100 then Except.ok [row 100 0 true, row 101 1 true, row 102 1 true]
  else if y = 101 then Except.ok [row 101 0 true]
  else if y = 102 then Except.ok [row 102 0 true, row 101 1 true]
  else Except.ok []

/-- Root `1` with single non-manager child `2` (used to exhibit the
invariant theorems at a concrete input). -/
def qW3 : Nat → Except String (List CustomerClient) := fun y =>
  if y = 1 then Except.ok [row 1 0 true] else Except.ok []

/-- Root `1` with one level-0 echo and one level-1 child. -/
def qW4 : Nat → Except String (List CustomerClient) := fun y =>
  if y = 1 then Except.ok [row 1 0 true, row 2 1 false] else Except.ok []

/-! ### Basic lemmas about the child mapping -/

theorem hasKey_appendChild (m : ChildMap) (k : Nat) (c : CustomerClient) (x : Nat) :
    hasKey (appendChild m k c) x = true ↔ hasKey m x = true ∨ x = k := by
  induction m with
  | nil =>
      simp only [appendChild, hasKey, List.any_nil, List.any_cons, Bool.or_false,
        beq_iff_eq]
      constructor
      · intro h
        exact Or.inr h.symm
      · rintro (h | h)
        · cases h
        · exact h.symm
  | cons p rest ih =>
      obtain ⟨k', cs⟩ := p
      by_cases h : k' = k
      · subst h
        rw [show appendChild ((k', cs) :: rest) k' c = (k', cs ++ [c]) :: rest from by
          simp [appendChild]]
        simp only [hasKey, List.any_cons, Bool.or_eq_true, beq_iff_eq]
        constructor
        · exact fun hx => Or.inl hx
        · rintro (hx | hx)
          · exact hx
          · exact Or.inl hx.symm
      · rw [show appendChild ((k', cs) :: rest) k c = (k', cs) :: appendChild rest k c from by
          simp [appendChild, h]]
        simp only [hasKey, List.any_cons, Bool.or_eq_true, beq_iff_eq] at ih ⊢
        constructor
        · rintro (hx | hx)
          · exact Or.inl (Or.inl hx)
          · rcases ih.mp hx with h' | h'
            · exact Or.inl (Or.inr h')
            · exact Or.inr h'
        · rintro ((hx | hx) | hx)
          · exact Or.inl hx
          · exact Or.inr (ih.mpr (Or.inl hx))
          · exact Or.inr (ih.mpr (Or.inr hx))

theorem hasKey_appendChild_self (m : ChildMap) (k : Nat) (c : CustomerClient) :
    hasKey (appendChild m k c) k = true :=
  (hasKey_appendChild m k c k).mpr (Or.inr rfl)

theorem childrenAt_appendChild_self (m : ChildMap) (k : Nat) (c : CustomerClient) :
    childrenAt (appendChild m k c) k = childrenAt m k ++ [c] := by
  induction m with
  | nil => simp [appendChild, childrenAt, lookupChildren]
  | cons p rest ih =>
      obtain ⟨k', cs⟩ := p
      by_cases h : k' = k
      · subst h
        simp [appendChild, childrenAt, lookupChildren]
      · have hbeq : (k' == k) = false := beq_eq_false_iff_ne.mpr h
        simp only [appendChild, if_neg h, childrenAt, lookupChildren, List.find?, hbeq]
        exact ih

theorem childrenAt_appendChild_other (m : ChildMap) (k : Nat) (c : CustomerClient)
    (p : Nat) (hp : p ≠ k) :
    childrenAt (appendChild m k c) p = childrenAt m p := by
  have hkp : (k == p) = false := beq_eq_false_iff_ne.mpr (Ne.symm hp)
  induction m with
  | nil =>
      simp [appendChild, childrenAt, lookupChildren, List.find?, hkp]
  | cons q rest ih =>
      obtain ⟨k', cs⟩ := q
      by_cases h : k' = k
      · subst h
        simp only [appendChild, if_pos rfl, childrenAt, lookupChildren, List.find?, hkp]
      · simp only [appendChild, if_neg h, childrenAt, lookupChildren, List.find?]
        cases hk'p : (k' == p) with
        | true => simp
        | false =>
            simp only []
            exact ih

/-! ### Lemmas about `countOcc` -/

theorem countOcc_append {α : Type} [DecidableEq α] (a : α) (l l' : List α) :
    countOcc a (l ++ l') = countOcc a l + countOcc a l' := by
  induction l with
  | nil => simp [countOcc]
  | cons b t ih => simp [countOcc, ih]; omega

theorem countOcc_filter_of_true {α : Type} [DecidableEq α] (a : α) (p : α → Bool)
    (l : List α) (hp : p a = true) :
    countOcc a (l.filter p) = countOcc a l := by
  induction l with
  | nil => simp
  | cons b t ih =>
      by_cases hb : b = a
      · subst hb
        simp [List.filter, hp, countOcc, ih]
      · by_cases hpb : p b = true
        · simp [List.filter, hpb, countOcc, hb, ih]
        · simp [List.filter, Bool.eq_false_iff.mpr hpb, countOcc, hb, ih]

theorem countOcc_pos_of_mem {α : Type} [DecidableEq α] (a : α) (l : List α)
    (h : a ∈ l) : 1 ≤ countOcc a l := by
  induction l with
  | nil => cases h
  | cons b t ih =>
      rcases List.mem_cons.mp h with h | h
      · simp [countOcc, h.symm]
      · have := ih h
        simp only [countOcc]
        omega

/-! ### Shape lemmas for row processing -/

theorem processRow_zero (y : Nat) (st : Option CustomerClient × ChildMap × List Nat)
    (r : CustomerClient) (h : r.level = 0) :
    processRow y st r =
      ((match st.1 with | none => some r | some rc => some rc), st.2.1, st.2.2) := by
  obtain ⟨ro, m, qu⟩ := st
  simp [processRow, h]

theorem processRow_nonzero (y : Nat) (st : Option CustomerClient × ChildMap × List Nat)
    (r : CustomerClient) (h : ¬ r.level = 0) :
    processRow y st r =
      (st.1, appendChild st.2.1 y r,
        if r.manager = true ∧ hasKey (appendChild st.2.1 y r) r.id = false ∧ r.level = 1
        then st.2.2 ++ [r.id] else st.2.2) := by
  obtain ⟨ro, m, qu⟩ := st
  simp only [processRow, if_neg h]
  split_ifs <;> rfl

theorem processRows_nil (y : Nat) (st : Option CustomerClient × ChildMap × List Nat) :
    processRows y [] st = st := rfl

theorem processRows_cons (y : Nat) (r : CustomerClient) (rows : List CustomerClient)
    (st : Option CustomerClient × ChildMap × List Nat) :
    processRows y (r :: rows) st = processRows y rows (processRow y st r) := rfl

/-! ### The captured root row across one response -/

theorem processRows_fst_some (y : Nat) (rows : List CustomerClient)
    (rc : CustomerClient) :
    ∀ m qu, (processRows y rows (some rc, m, qu)).1 = some rc := by
  induction rows with
  | nil => intro m qu; rfl
  | cons r rs ih =>
      intro m qu
      by_cases h : r.level = 0
      · rw [processRows_cons, processRow_zero y _ r h]
        exact ih m qu
      · rw [processRows_cons, processRow_nonzero y _ r h]
        by_cases h2 : r.manager = true ∧
            hasKey (appendChild m y r) r.id = false ∧ r.level = 1
        · simp only [if_pos h2]
          exact ih _ _
        · simp only [if_neg h2]
          exact ih _ _

theorem processRows_fst_none (y : Nat) (rows : List CustomerClient) :
    ∀ m qu, (processRows y rows (none, m, qu)).1 =
      rows.find? (fun r => r.level == 0) := by
  induction rows with
  | nil => intro m qu; rfl
  | cons r rs ih =>
      intro m qu
      by_cases h : r.level = 0
      · rw [processRows_cons, processRow_zero y _ r h]
        have hb : (r.level == 0) = true := by simp [h]
        rw [List.find?, hb]
        exact processRows_fst_some y rs r m qu
      · have hb : (r.level == 0) = false := by simp [h]
        rw [processRows_cons, processRow_nonzero y _ r h, List.find?, hb]
        by_cases h2 : r.manager = true ∧
            hasKey (appendChild m y r) r.id = false ∧ r.level = 1
        · simp only [if_pos h2]
          exact ih _ _
        · simp only [if_neg h2]
          exact ih _ _

/-! ### The child mapping across one response -/

theorem processRows_childrenAt_self (y : Nat) (rows : List CustomerClient) :
    ∀ ro m qu, childrenAt (processRows y rows (ro, m, qu)).2.1 y =
      childrenAt m y ++ rows.filter (fun r => r.level != 0) := by
  induction rows with
  | nil => intro ro m qu; simp [processRows_nil]
  | cons r rs ih =>
      intro ro m qu
      by_cases h : r.level = 0
      · have hb : (r.level != 0) = false := by simp [h]
        rw [processRows_cons, processRow_zero y _ r h, List.filter, hb]
        exact ih _ m qu
      · have hb : (r.level != 0) = true := by simp [h]
        rw [processRows_cons, processRow_nonzero y _ r h, List.filter, hb]
        by_cases h2 : r.manager = true ∧
            hasKey (appendChild m y r) r.id = false ∧ r.level = 1
        · simp only [if_pos h2]
          rw [ih _ _ _, childrenAt_appendChild_self]
          simp
        · simp only [if_neg h2]
          rw [ih _ _ _, childrenAt_appendChild_self]
          simp

theorem processRows_childrenAt_other (y : Nat) (rows : List CustomerClient)
    (p : Nat) (hp : p ≠ y) :
    ∀ ro m qu, childrenAt (processRows y rows (ro, m, qu)).2.1 p = childrenAt m p := by
  induction rows with
  | nil => intro ro m qu; rfl
  | cons r rs ih =>
      intro ro m qu
      by_cases h : r.level = 0
      · rw [processRows_cons, processRow_zero y _ r h]
        exact ih _ m qu
      · rw [processRows_cons, processRow_nonzero y _ r h]
        by_cases h2 : r.manager = true ∧
            hasKey (appendChild m y r) r.id = false ∧ r.level = 1
        · simp only [if_pos h2]
          rw [ih _ _ _, childrenAt_appendChild_other _ _ _ _ hp]
        · simp only [if_neg h2]
          rw [ih _ _ _, childrenAt_appendChild_other _ _ _ _ hp]

/-! ### Keys across one response -/

theorem processRows_hasKey_mono (y : Nat) (rows : List CustomerClient) (x : Nat) :
    ∀ ro m qu, hasKey m x = true →
      hasKey (processRows y rows (ro, m, qu)).2.1 x = true := by
  induction rows with
  | nil => intro ro m qu hx; exact hx
  | cons r rs ih =>
      intro ro m qu hx
      by_cases h : r.level = 0
      · rw [processRows_cons, processRow_zero y _ r h]
        exact ih _ m qu hx
      · rw [processRows_cons, processRow_nonzero y _ r h]
        have hx' : hasKey (appendChild m y r) x = true :=
          (hasKey_appendChild m y r x).mpr (Or.inl hx)
        by_cases h2 : r.manager = true ∧
            hasKey (appendChild m y r) r.id = false ∧ r.level = 1
        · simp only [if_pos h2]
          exact ih _ _ _ hx'
        · simp only [if_neg h2]
          exact ih _ _ _ hx'

theorem processRows_hasKey_sub (y : Nat) (rows : List CustomerClient) (x : Nat) :
    ∀ ro m qu, hasKey (processRows y rows (ro, m, qu)).2.1 x = true →
      hasKey m x = true ∨ x = y := by
  induction rows with
  | nil => intro ro m qu hx; exact Or.inl hx
  | cons r rs ih =>
      intro ro m qu hx
      by_cases h : r.level = 0
      · rw [processRows_cons, processRow_zero y _ r h] at hx
        exact ih _ m qu hx
      · rw [processRows_cons, processRow_nonzero y _ r h] at hx
        by_cases h2 : r.manager = true ∧
            hasKey (appendChild m y r) r.id = false ∧ r.level = 1
        · rw [if_pos h2] at hx
          rcases ih _ _ _ hx with h' | h'
          · exact (hasKey_appendChild m y r x).mp h'
          · exact Or.inr h'
        · rw [if_neg h2] at hx
          rcases ih _ _ _ hx with h' | h'
          · exact (hasKey_appendChild m y r x).mp h'
          · exact Or.inr h'

theorem processRows_key_self (y : Nat) (rows : List CustomerClient) :
    ∀ ro m qu, (∃ r ∈ rows, r.level ≠ 0) →
      hasKey (processRows y rows (ro, m, qu)).2.1 y = true := by
  induction rows with
  | nil => intro ro m qu h; rcases h with ⟨r, hr, _⟩; cases hr
  | cons r rs ih =>
      intro ro m qu hex
      by_cases h : r.level = 0
      · rw [processRows_cons, processRow_zero y _ r h]
        apply ih
        rcases hex with ⟨r', hr', hl⟩
        rcases List.mem_cons.mp hr' with h' | h'
        · exact absurd (h' ▸ h) hl
        · exact ⟨r', h', hl⟩
      · rw [processRows_cons, processRow_nonzero y _ r h]
        have hk : hasKey (appendChild m y r) y = true := hasKey_appendChild_self m y r
        by_cases h2 : r.manager = true ∧
            hasKey (appendChild m y r) r.id = false ∧ r.level = 1
        · simp only [if_pos h2]
          exact processRows_hasKey_mono y rs y _ _ _ hk
        · simp only [if_neg h2]
          exact processRows_hasKey_mono y rs y _ _ _ hk

theorem processRows_all_zero (y : Nat) (rows : List CustomerClient) :
    ∀ ro m qu, (∀ r ∈ rows, r.level = 0) →
      (processRows y rows (ro, m, qu)).2.1 = m ∧
      (processRows y rows (ro, m, qu)).2.2 = qu := by
  induction rows with
  | nil => intro ro m qu _; exact ⟨rfl, rfl⟩
  | cons r rs ih =>
      intro ro m qu hall
      rw [processRows_cons, processRow_zero y _ r (hall r (List.mem_cons_self r rs))]
      exact ih _ m qu (fun r' hr' => hall r' (List.mem_cons_of_mem r hr'))

/-! ### The work queue across one response -/

theorem processRows_queue_spec (y : Nat) (rows : List CustomerClient) :
    ∀ ro m qu, ∃ app, (processRows y rows (ro, m, qu)).2.2 = qu ++ app ∧
      ∀ x ∈ app, hasKey m x = false ∧
        rows.any (fun r => r.id == x && r.manager && (r.level == 1)) = true := by
  induction rows with
  | nil => intro ro m qu; exact ⟨[], by simp [processRows_nil], by simp⟩
  | cons r rs ih =>
      intro ro m qu
      by_cases h : r.level = 0
      · rw [processRows_cons, processRow_zero y _ r h]
        obtain ⟨app, happ, hprop⟩ := ih _ m qu
        refine ⟨app, happ, fun x hx => ?_⟩
        obtain ⟨hk, hany⟩ := hprop x hx
        exact ⟨hk, by simp only [List.any_cons, Bool.or_eq_true]; exact Or.inr hany⟩
      · rw [processRows_cons, processRow_nonzero y _ r h]
        by_cases h2 : r.manager = true ∧
            hasKey (appendChild m y r) r.id = false ∧ r.level = 1
        · simp only [if_pos h2]
          obtain ⟨app, happ, hprop⟩ := ih _ (appendChild m y r) (qu ++ [r.id])
          refine ⟨r.id :: app, by rw [happ]; simp, fun x hx => ?_⟩
          rcases List.mem_cons.mp hx with hx | hx
          · subst hx
            constructor
            · cases hk : hasKey m r.id with
              | false => rfl
              | true =>
                  have := (hasKey_appendChild m y r r.id).mpr (Or.inl hk)
                  rw [h2.2.1] at this
                  cases this
            · simp only [List.any_cons, Bool.or_eq_true]
              exact Or.inl (by simp [h2.1, h2.2.2])
          · obtain ⟨hk, hany⟩ := hprop x hx
            constructor
            · cases hk0 : hasKey m x with
              | false => rfl
              | true =>
                  have := (hasKey_appendChild m y r x).mpr (Or.inl hk0)
                  rw [hk] at this
                  cases this
            · simp only [List.any_cons, Bool.or_eq_true]
              exact Or.inr hany
        · simp only [if_neg h2]
          obtain ⟨app, happ, hprop⟩ := ih _ (appendChild m y r) qu
          refine ⟨app, happ, fun x hx => ?_⟩
          obtain ⟨hk, hany⟩ := hprop x hx
          constructor
          · cases hk0 : hasKey m x with
            | false => rfl
            | true =>
                have := (hasKey_appendChild m y r x).mpr (Or.inl hk0)
                rw [hk] at this
                cases this
          · simp only [List.any_cons, Bool.or_eq_true]
            exact Or.inr hany

/-! ### Rows recorded in the mapping across one response -/

theorem processRows_goodMap (q : Nat → Except String (List CustomerClient))
    (y : Nat) (rows : List CustomerClient) (ro : Option CustomerClient)
    (m : ChildMap) (qu : List Nat)
    (hm : goodMap q m) (hq : q y = Except.ok rows) :
    goodMap q (processRows y rows (ro, m, qu)).2.1 := by
  intro p r hr
  by_cases hp : p = y
  · subst hp
    rw [processRows_childrenAt_self] at hr
    rcases List.mem_append.mp hr with hr | hr
    · exact hm p r hr
    · obtain ⟨hmem, hlev⟩ := List.mem_filter.mp hr
      refine ⟨?_, p, rows, hq, hmem⟩
      simpa using hlev
  · rw [processRows_childrenAt_other y rows p hp] at hr
    exact hm p r hr

/-! ### Unfolding lemmas for the loop -/

theorem runLoop_nil (q : Nat → Except String (List CustomerClient)) (fuel : Nat)
    (ro : Option CustomerClient) (m : ChildMap) (tr : List Nat) :
    runLoop q fuel [] ro m tr = .ok ro m tr := by
  cases fuel <;> rfl

theorem runLoop_zero_cons (q : Nat → Except String (List CustomerClient))
    (y : Nat) (rest : List Nat) (ro : Option CustomerClient) (m : ChildMap)
    (tr : List Nat) :
    runLoop q 0 (y :: rest) ro m tr = .outOfFuel := rfl

theorem runLoop_cons_err (q : Nat → Except String (List CustomerClient))
    (fuel y : Nat) (rest : List Nat) (ro : Option CustomerClient) (m : ChildMap)
    (tr : List Nat) (e : String) (hq : q y = Except.error e) :
    runLoop q (fuel + 1) (y :: rest) ro m tr = .fail e := by
  show (match q y with
        | .error e => LoopResult.fail e
        | .ok rows =>
            runLoop q fuel (processRows y rows (ro, m, rest)).2.2
              (processRows y rows (ro, m, rest)).1
              (processRows y rows (ro, m, rest)).2.1 (tr ++ [y])) = .fail e
  rw [hq]

theorem runLoop_cons_ok (q : Nat → Except String (List CustomerClient))
    (fuel y : Nat) (rest : List Nat) (ro : Option CustomerClient) (m : ChildMap)
    (tr : List Nat) (rows : List CustomerClient) (hq : q y = Except.ok rows) :
    runLoop q (fuel + 1) (y :: rest) ro m tr =
      runLoop q fuel (processRows y rows (ro, m, rest)).2.2
        (processRows y rows (ro, m, rest)).1
        (processRows y rows (ro, m, rest)).2.1 (tr ++ [y]) := by
  show (match q y with
        | .error e => LoopResult.fail e
        | .ok rows =>
            runLoop q fuel (processRows y rows (ro, m, rest)).2.2
              (processRows y rows (ro, m, rest)).1
              (processRows y rows (ro, m, rest)).2.1 (tr ++ [y])) = _
  rw [hq]

/-! ### Invariants maintained by the loop -/

theorem runLoop_fst_some (q : Nat → Except String (List CustomerClient))
    (rc : CustomerClient) :
    ∀ fuel queue m tr ro' m' tr',
      runLoop q fuel queue (some rc) m tr = .ok ro' m' tr' → ro' = some rc := by
  intro fuel
  induction fuel with
  | zero =>
      intro queue m tr ro' m' tr' h
      cases queue with
      | nil => rw [runLoop_nil] at h; cases h; rfl
      | cons y rest => rw [runLoop_zero_cons] at h; cases h
  | succ fuel ih =>
      intro queue m tr ro' m' tr' h
      cases queue with
      | nil => rw [runLoop_nil] at h; cases h; rfl
      | cons y rest =>
          cases hq : q y with
          | error e => rw [runLoop_cons_err q fuel y rest _ m tr e hq] at h; cases h
          | ok rows =>
              rw [runLoop_cons_ok q fuel y rest _ m tr rows hq,
                processRows_fst_some y rows rc m rest] at h
              exact ih _ _ _ _ _ _ h

theorem runLoop_goodMap (q : Nat → Except String (List CustomerClient)) :
    ∀ fuel queue ro m tr ro' m' tr', goodMap q m →
      runLoop q fuel queue ro m tr = .ok ro' m' tr' → goodMap q m' := by
  intro fuel
  induction fuel with
  | zero =>
      intro queue ro m tr ro' m' tr' hm h
      cases queue with
      | nil => rw [runLoop_nil] at h; cases h; exact hm
      | cons y rest => rw [runLoop_zero_cons] at h; cases h
  | succ fuel ih =>
      intro queue ro m tr ro' m' tr' hm h
      cases queue with
      | nil => rw [runLoop_nil] at h; cases h; exact hm
      | cons y rest =>
          cases hq : q y with
          | error e => rw [runLoop_cons_err q fuel y rest ro m tr e hq] at h; cases h
          | ok rows =>
              rw [runLoop_cons_ok q fuel y rest ro m tr rows hq] at h
              exact ih _ _ _ _ _ _ _
                (processRows_goodMap q y rows ro m rest hm hq) h

theorem runLoop_fst_none (q : Nat → Except String (List CustomerClient))
    (hq : ∀ y rows r, q y = Except.ok rows → r ∈ rows → r.level ≠ 0) :
    ∀ fuel queue m tr ro' m' tr',
      runLoop q fuel queue none m tr = .ok ro' m' tr' → ro' = none := by
  intro fuel
  induction fuel with
  | zero =>
      intro queue m tr ro' m' tr' h
      cases queue with
      | nil => rw [runLoop_nil] at h; cases h; rfl
      | cons y rest => rw [runLoop_zero_cons] at h; cases h
  | succ fuel ih =>
      intro queue m tr ro' m' tr' h
      cases queue with
      | nil => rw [runLoop_nil] at h; cases h; rfl
      | cons y rest =>
          cases hqy : q y with
          | error e => rw [runLoop_cons_err q fuel y rest _ m tr e hqy] at h; cases h
          | ok rows =>
              have hfind : rows.find? (fun r => r.level == 0) = none := by
                rw [List.find?_eq_none]
                intro r hr
                simpa using hq y rows r hqy hr
              rw [runLoop_cons_ok q fuel y rest _ m tr rows hqy,
                processRows_fst_none y rows m rest, hfind] at h
              exact ih _ _ _ _ _ _ h

theorem runLoop_first_root (q : Nat → Except String (List CustomerClient))
    (root fuel : Nat) (m : ChildMap) (tr : List Nat)
    (rows0 : List CustomerClient) (r0 : CustomerClient)
    (ro' : Option CustomerClient) (m' : ChildMap) (tr' : List Nat)
    (hq : q root = Except.ok rows0)
    (hfind : rows0.find? (fun r => r.level == 0) = some r0)
    (h : runLoop q (fuel + 1) [root] none m tr = .ok ro' m' tr') :
    ro' = some r0 := by
  rw [runLoop_cons_ok q fuel root [] none m tr rows0 hq,
    processRows_fst_none root rows0 m [], hfind] at h
  exact runLoop_fst_some q r0 fuel _ _ _ _ _ _ h

/-! ### Unfolding and structure lemmas for the flattening -/

theorem parseNode_zero (m : ChildMap) (c : CustomerClient) :
    parseNode m 0 c = none := rfl

theorem parseNode_succ (m : ChildMap) (f : Nat) (c : CustomerClient) :
    parseNode m (f + 1) c =
      match parseList m f (childrenAt m c.id) with
      | none => none
      | some subs => some (mkGAccount c :: subs.flatten) := rfl

theorem parseList_nil (m : ChildMap) (f : Nat) : parseList m f [] = some [] := rfl

theorem parseList_cons (m : ChildMap) (f : Nat) (c : CustomerClient)
    (cs : List CustomerClient) :
    parseList m f (c :: cs) =
      match parseNode m f c with
      | none => none
      | some a =>
          match parseList m f cs with
          | none => none
          | some as' => some (a :: as') := by
  show seqParse (parseNode m f) (c :: cs) = _
  unfold seqParse
  cases parseNode m f c with
  | none => rfl
  | some a =>
      cases hl : seqParse (parseNode m f) cs with
      | none =>
          have hpl : parseList m f cs = none := hl
          rw [hpl]
      | some as' =>
          have hpl : parseList m f cs = some as' := hl
          rw [hpl]

theorem parseNode_succ_some (m : ChildMap) (f : Nat) (c : CustomerClient)
    (out : List GAccount) (h : parseNode m (f + 1) c = some out) :
    ∃ subs, parseList m f (childrenAt m c.id) = some subs ∧
      out = mkGAccount c :: subs.flatten := by
  rw [parseNode_succ] at h
  cases hpl : parseList m f (childrenAt m c.id) with
  | none => simp only [hpl] at h; cases h
  | some subs =>
      simp only [hpl] at h
      injection h with h
      exact ⟨subs, rfl, h.symm⟩

theorem parseList_cons_some (m : ChildMap) (f : Nat) (c : CustomerClient)
    (cs : List CustomerClient) (res : List (List GAccount))
    (h : parseList m f (c :: cs) = some res) :
    ∃ a as', parseNode m f c = some a ∧ parseList m f cs = some as' ∧
      res = a :: as' := by
  rw [parseList_cons] at h
  cases hn : parseNode m f c with
  | none => simp only [hn] at h; cases h
  | some a =>
      simp only [hn] at h
      cases hl : parseList m f cs with
      | none => simp only [hl] at h; cases h
      | some as' =>
          simp only [hl] at h
          injection h with h
          exact ⟨a, as', rfl, rfl, h.symm⟩

theorem parseNode_head (m : ChildMap) (f : Nat) (c : CustomerClient)
    (out : List GAccount) (h : parseNode m f c = some out) :
    out.head? = some (mkGAccount c) := by
  cases f with
  | zero => rw [parseNode_zero] at h; cases h
  | succ f =>
      obtain ⟨subs, _, rfl⟩ := parseNode_succ_some m f c out h
      rfl

theorem parseList_forall2 (m : ChildMap) (f : Nat) :
    ∀ (cs : List CustomerClient) (subs : List (List GAccount)),
      parseList m f cs = some subs →
      List.Forall₂ (fun ch sub => parseNode m f ch = some sub) cs subs := by
  intro cs
  induction cs with
  | nil =>
      intro subs h
      rw [parseList_nil] at h
      cases h
      exact List.Forall₂.nil
  | cons c cs' ih =>
      intro subs h
      obtain ⟨a, as', hn, hl, rfl⟩ := parseList_cons_some m f c cs' subs h
      exact List.Forall₂.cons hn (ih as' hl)

theorem parseList_mem_aux (m : ChildMap) (f : Nat)
    (ih : ∀ c out a, parseNode m f c = some out → a ∈ out →
      a = mkGAccount c ∨ ∃ r, rowInMap m r ∧ a = mkGAccount r) :
    ∀ (cs : List CustomerClient) (subs : List (List GAccount)) (a : GAccount),
      parseList m f cs = some subs → a ∈ subs.flatten →
      (∃ c' ∈ cs, a = mkGAccount c') ∨ ∃ r, rowInMap m r ∧ a = mkGAccount r := by
  intro cs
  induction cs with
  | nil =>
      intro subs a h ha
      rw [parseList_nil] at h
      cases h
      simp at ha
  | cons c cs' ihl =>
      intro subs a h ha
      obtain ⟨s, as', hn, hl, rfl⟩ := parseList_cons_some m f c cs' subs h
      rw [List.flatten_cons] at ha
      rcases List.mem_append.mp ha with ha | ha
      · rcases ih c s a hn ha with h' | h'
        · exact Or.inl ⟨c, List.mem_cons_self c cs', h'⟩
        · exact Or.inr h'
      · rcases ihl as' a hl ha with ⟨c', hc', h'⟩ | h'
        · exact Or.inl ⟨c', List.mem_cons_of_mem c hc', h'⟩
        · exact Or.inr h'

theorem parseNode_mem (m : ChildMap) :
    ∀ (f : Nat) (c : CustomerClient) (out : List GAccount) (a : GAccount),
      parseNode m f c = some out → a ∈ out →
      a = mkGAccount c ∨ ∃ r, rowInMap m r ∧ a = mkGAccount r := by
  intro f
  induction f with
  | zero => intro c out a h _; rw [parseNode_zero] at h; cases h
  | succ f ih =>
      intro c out a h ha
      obtain ⟨subs, hpl, rfl⟩ := parseNode_succ_some m f c out h
      rcases List.mem_cons.mp ha with ha | ha
      · exact Or.inl ha
      · rcases parseList_mem_aux m f ih (childrenAt m c.id) subs a hpl ha with
          ⟨c', hc', h'⟩ | h'
        · exact Or.inr ⟨c', ⟨c.id, hc'⟩, h'⟩
        · exact Or.inr h'

theorem countOcc_flatten_heads (d : CustomerClient) (cs : List CustomerClient)
    (subs : List (List GAccount))
    (h : List.Forall₂ (fun ch (sub : List GAccount) =>
      sub.head? = some (mkGAccount ch)) cs subs) :
    countOcc d cs ≤ countOcc (mkGAccount d) subs.flatten := by
  induction h with
  | nil => simp [countOcc]
  | @cons ch sub cs' subs' h1 _ ihh =>
      rw [List.flatten_cons, countOcc_append]
      by_cases hd : ch = d
      · subst hd
        have hmem : mkGAccount ch ∈ sub := by
          cases sub with
          | nil => cases h1
          | cons b t =>
              have : b = mkGAccount ch := by
                simpa using h1
              rw [this]
              exact List.mem_cons_self _ _
        have h1' := countOcc_pos_of_mem (mkGAccount ch) sub hmem
        have h2 : countOcc ch (ch :: cs') = 1 + countOcc ch cs' := by
          simp [countOcc]
        rw [h2]
        omega
      · have h2 : countOcc d (ch :: cs') = countOcc d cs' := by
          simp [countOcc, hd]
        rw [h2]
        omega

/-! ### Counting lemmas for the termination measure -/

theorem keyedCount_cons (m : ChildMap) (y : Nat) (l : List Nat) :
    keyedCount m (y :: l) =
      (if hasKey m y = true then 1 else 0) + keyedCount m l := by
  by_cases h : hasKey m y = true
  · simp [keyedCount, List.filter, h]
    omega
  · have h' : hasKey m y = false := by
      cases hh : hasKey m y
      · rfl
      · exact absurd hh h
    simp [keyedCount, List.filter, h']

theorem keyedCount_append (m : ChildMap) (l1 l2 : List Nat) :
    keyedCount m (l1 ++ l2) = keyedCount m l1 + keyedCount m l2 := by
  simp [keyedCount, List.filter_append]

theorem keyedCount_congr (m m2 : ChildMap) (l : List Nat)
    (h : ∀ x ∈ l, hasKey m2 x = hasKey m x) :
    keyedCount m2 l = keyedCount m l := by
  unfold keyedCount
  rw [List.filter_congr h]

theorem keyedCount_zero_of_false (m : ChildMap) (l : List Nat)
    (h : ∀ x ∈ l, hasKey m x = false) :
    keyedCount m l = 0 := by
  unfold keyedCount
  rw [List.filter_eq_nil_iff.mpr ?hp]
  · rfl
  · intro x hx
    rw [h x hx]
    exact Bool.false_ne_true

theorem unkeyedCount_congr (U : Finset Nat) (m m2 : ChildMap)
    (h : ∀ x, hasKey m2 x = hasKey m x) :
    unkeyedCount U m2 = unkeyedCount U m := by
  unfold unkeyedCount
  congr 1
  apply Finset.filter_congr
  intro x _
  rw [h x]

theorem unkeyedCount_strict (U : Finset Nat) (m m2 : ChildMap) (y : Nat)
    (hyU : y ∈ U) (hy : hasKey m y = false) (hy2 : hasKey m2 y = true)
    (hmono : ∀ x, hasKey m x = true → hasKey m2 x = true) :
    unkeyedCount U m2 < unkeyedCount U m := by
  unfold unkeyedCount
  have hsub : (U.filter (fun x => hasKey m2 x = false)) ⊆
      (U.filter (fun x => hasKey m x = false)).erase y := by
    intro x hx
    obtain ⟨hxU, hxk⟩ := Finset.mem_filter.mp hx
    refine Finset.mem_erase.mpr ⟨?_, Finset.mem_filter.mpr ⟨hxU, ?_⟩⟩
    · intro hxy
      rw [hxy, hy2] at hxk
      cases hxk
    · cases hk : hasKey m x
      · rfl
      · rw [hmono x hk] at hxk
        cases hxk
  have hymem : y ∈ U.filter (fun x => hasKey m x = false) :=
    Finset.mem_filter.mpr ⟨hyU, hy⟩
  calc (U.filter (fun x => hasKey m2 x = false)).card
      ≤ ((U.filter (fun x => hasKey m x = false)).erase y).card :=
        Finset.card_le_card hsub
    _ < (U.filter (fun x => hasKey m x = false)).card :=
        Finset.card_erase_lt_of_mem hymem

/-! ### Termination of the traversal loop -/

theorem termGoal_step (q : Nat → Except String (List CustomerClient)) (U : Finset Nat)
    (hok : ∀ y ∈ U, ∃ rows, q y = Except.ok rows)
    (hqU : ∀ y ∈ U, ∀ rows r, q y = Except.ok rows → r ∈ rows → r.id ∈ U)
    (n1 n2 n3 : Nat)
    (ih1 : ∀ k, k < n1 → ∀ n2' n3', TermGoal q U k n2' n3')
    (ih2 : ∀ j, j < n2 → ∀ n3', TermGoal q U n1 j n3')
    (ih3 : ∀ i, i < n3 → TermGoal q U n1 n2 i) :
    TermGoal q U n1 n2 n3 := by
  intro queue rootO m tr hqueue hkeys hb1 hb2 hb3
  cases queue with
  | nil => exact ⟨0, rootO, m, tr, runLoop_nil q 0 rootO m tr⟩
  | cons y rest =>
      have hyU : y ∈ U := hqueue y (List.mem_cons_self y rest)
      obtain ⟨rows, hrows⟩ := hok y hyU
      obtain ⟨app, happ, hprop⟩ := processRows_queue_spec y rows rootO m rest
      have happU : ∀ x ∈ app, x ∈ U := by
        intro x hx
        obtain ⟨_, hany⟩ := hprop x hx
        obtain ⟨r, hr, hcond⟩ := List.any_eq_true.mp hany
        have hid : r.id = x := by
          have := hcond
          simp only [Bool.and_eq_true, beq_iff_eq] at this
          exact this.1.1
        exact hid ▸ hqU y hyU rows r hrows hr
      have hqueue' : ∀ x ∈ (processRows y rows (rootO, m, rest)).2.2, x ∈ U := by
        intro x hx
        rw [happ] at hx
        rcases List.mem_append.mp hx with hx | hx
        · exact hqueue x (List.mem_cons_of_mem y hx)
        · exact happU x hx
      have hkeys' : ∀ x, hasKey (processRows y rows (rootO, m, rest)).2.1 x = true →
          x ∈ U := by
        intro x hx
        rcases processRows_hasKey_sub y rows x rootO m rest hx with h | h
        · exact hkeys x h
        · exact h ▸ hyU
      suffices hterm : LoopTerminates q (processRows y rows (rootO, m, rest)).2.2
          (processRows y rows (rootO, m, rest)).1
          (processRows y rows (rootO, m, rest)).2.1 (tr ++ [y]) by
        obtain ⟨fuel, ro', m', tr', hrun⟩ := hterm
        exact ⟨fuel + 1, ro', m', tr', by
          rw [runLoop_cons_ok q fuel y rest rootO m tr rows hrows]
          exact hrun⟩
      by_cases hkey : hasKey m y = true
      · -- the popped id is already a parent key: the keys do not change and
        -- the number of keyed queue entries strictly decreases
        have hkeq : ∀ x, hasKey (processRows y rows (rootO, m, rest)).2.1 x =
            hasKey m x := by
          intro x
          cases hk : hasKey m x
          · cases hk2 : hasKey (processRows y rows (rootO, m, rest)).2.1 x
            · rfl
            · rcases processRows_hasKey_sub y rows x rootO m rest hk2 with h | h
              · rw [hk] at h; cases h
              · rw [h, hkey] at hk; cases hk
          · exact processRows_hasKey_mono y rows x rootO m rest hk
        have hm1 : unkeyedCount U (processRows y rows (rootO, m, rest)).2.1 =
            unkeyedCount U m := unkeyedCount_congr U m _ hkeq
        have hkc : keyedCount (processRows y rows (rootO, m, rest)).2.1
            (processRows y rows (rootO, m, rest)).2.2 = keyedCount m rest := by
          rw [happ, keyedCount_append]
          have h0 : keyedCount (processRows y rows (rootO, m, rest)).2.1 app = 0 := by
            apply keyedCount_zero_of_false
            intro x hx
            rw [hkeq x]
            exact (hprop x hx).1
          have hr : keyedCount (processRows y rows (rootO, m, rest)).2.1 rest =
              keyedCount m rest := keyedCount_congr m _ rest (fun x _ => hkeq x)
          omega
        have hlt : keyedCount m rest < n2 := by
          have hc := keyedCount_cons m y rest
          rw [if_pos hkey] at hc
          omega
        exact ih2 (keyedCount m rest) hlt
          (processRows y rows (rootO, m, rest)).2.2.length _ _ _ _
          hqueue' hkeys' (hm1 ▸ hb1) (le_of_eq hkc) (le_refl _)
      · have hfalse : hasKey m y = false := by
          cases hh : hasKey m y
          · rfl
          · exact absurd hh hkey
        by_cases hnz : ∃ r ∈ rows, r.level ≠ 0
        · -- the popped id becomes a new parent key: the number of unkeyed
          -- universe ids strictly decreases
          have hky' : hasKey (processRows y rows (rootO, m, rest)).2.1 y = true :=
            processRows_key_self y rows rootO m rest hnz
          have hlt1 : unkeyedCount U (processRows y rows (rootO, m, rest)).2.1 <
              unkeyedCount U m :=
            unkeyedCount_strict U m _ y hyU hfalse hky'
              (fun x hx => processRows_hasKey_mono y rows x rootO m rest hx)
          exact ih1 (unkeyedCount U (processRows y rows (rootO, m, rest)).2.1)
            (lt_of_lt_of_le hlt1 hb1)
            (keyedCount (processRows y rows (rootO, m, rest)).2.1
              (processRows y rows (rootO, m, rest)).2.2)
            (processRows y rows (rootO, m, rest)).2.2.length _ _ _ _
            hqueue' hkeys' (le_refl _) (le_refl _) (le_refl _)
        · -- all rows are level 0: the state is unchanged and the queue shrinks
          have hall : ∀ r ∈ rows, r.level = 0 := by
            intro r hr
            by_contra hc
            exact hnz ⟨r, hr, hc⟩
          obtain ⟨hm_eq, hq_eq⟩ := processRows_all_zero y rows rootO m rest hall
          rw [hm_eq, hq_eq]
          have hn3 : rest.length < n3 := by
            have : (y :: rest).length = rest.length + 1 := rfl
            omega
          have hkc2 : keyedCount m rest ≤ n2 := by
            have hc := keyedCount_cons m y rest
            omega
          exact ih3 rest.length hn3 rest _ m _
            (fun x hx => hqueue x (List.mem_cons_of_mem y hx)) hkeys
            hb1 hkc2 (le_refl _)

theorem termGoal_all (q : Nat → Except String (List CustomerClient)) (U : Finset Nat)
    (hok : ∀ y ∈ U, ∃ rows, q y = Except.ok rows)
    (hqU : ∀ y ∈ U, ∀ rows r, q y = Except.ok rows → r ∈ rows → r.id ∈ U) :
    ∀ n1 n2 n3, TermGoal q U n1 n2 n3 := by
  intro n1
  induction n1 using Nat.strong_induction_on with
  | _ n1 ih1 =>
      intro n2
      induction n2 using Nat.strong_induction_on with
      | _ n2 ih2 =>
          intro n3
          induction n3 using Nat.strong_induction_on with
          | _ n3 ih3 =>
              exact termGoal_step q U hok hqU n1 n2 n3
                (fun k hk => ih1 k hk) (fun j hj => ih2 j hj) (fun i hi => ih3 i hi)


/-! ### Inversion of a successful resolution -/

theorem goodMap_nil (q : Nat → Except String (List CustomerClient)) :
    goodMap q [] := by
  intro p r hr
  simp [childrenAt, lookupChildren] at hr

theorem account_structure_ok (q : Nat → Except String (List CustomerClient))
    (root fuel pfuel : Nat) (l : List GAccount)
    (h : account_structure q root fuel pfuel = ResolveResult.ok l) :
    ∃ m tr rc, runLoop q fuel [root] none [] [] = LoopResult.ok (some rc) m tr ∧
      parseNode m pfuel rc = some l := by
  unfold account_structure at h
  cases hr : runLoop q fuel [root] none [] [] with
  | fail e => simp only [hr] at h; cases h
  | outOfFuel => simp only [hr] at h; cases h
  | ok rootO m tr =>
      simp only [hr] at h
      cases rootO with
      | none => cases h
      | some rc =>
          cases hp : parseNode m pfuel rc with
          | none => simp only [hp] at h; cases h
          | some accs =>
              simp only [hp] at h
              injection h with h
              exact ⟨m, tr, rc, rfl, by rw [hp, h]⟩

/-! ### Claims -/

/-- C2: for every traversal that completes without error, the emitted list
is a depth-first pre-order of the constructed forest: any node is emitted
first, strictly before its children, and each child's entire flattened
subtree (which begins with that child's own record) appears contiguously,
children in the order the query returned them. -/
theorem c2_preorder_flattening (m : ChildMap) (f : Nat) (c : CustomerClient)
    (out : List GAccount) (h : parseNode m (f + 1) c = some out) :
    ∀ subs, parseList m f (childrenAt m c.id) = some subs →
      out = mkGAccount c :: subs.flatten ∧
      List.Forall₂ (fun ch sub => parseNode m f ch = some sub ∧
        sub.head? = some (mkGAccount ch)) (childrenAt m c.id) subs := by
  intro subs hsubs
  obtain ⟨subs0, hpl, rfl⟩ := parseNode_succ_some m f c out h
  rw [hpl] at hsubs
  injection hsubs with hsubs
  subst hsubs
  refine ⟨rfl, ?_⟩
  exact List.Forall₂.imp (fun a b hab => ⟨hab, parseNode_head m f a b hab⟩)
    (parseList_forall2 m f (childrenAt m c.id) subs0 hpl)

/-- Witness for C2 at a concrete input: node `10` with mapped child `11`. -/
theorem c2_preorder_flattening_witness :
    [mkGAccount (row 10 0 true), mkGAccount (row 11 1 false)] =
      mkGAccount (row 10 0 true) ::
        ([[mkGAccount (row 11 1 false)]] : List (List GAccount)).flatten ∧
    List.Forall₂ (fun ch sub =>
        parseNode [(10, [row 11 1 false])] 1 ch = some sub ∧
        sub.head? = some (mkGAccount ch))
      (childrenAt [(10, [row 11 1 false])] 10) [[mkGAccount (row 11 1 false)]] :=
  c2_preorder_flattening [(10, [row 11 1 false])] 1 (row 10 0 true)
    [mkGAccount (row 10 0 true), mkGAccount (row 11 1 false)] (by decide)
    [[mkGAccount (row 11 1 false)]] (by decide)

/-- C9: a failure of the injected query capability on a queried id aborts
the loop immediately with that very error (no retry), and the resolver
returns no account list: the whole resolution fails with the propagated
error. -/
theorem c9_query_failure_aborts (q : Nat → Except String (List CustomerClient))
    (e : String) (y : Nat) (rest : List Nat) (rootO : Option CustomerClient)
    (m : ChildMap) (tr : List Nat) (fuel pfuel : Nat)
    (hq : q y = Except.error e) :
    runLoop q (fuel + 1) (y :: rest) rootO m tr = LoopResult.fail e ∧
    account_structure q y (fuel + 1) pfuel = ResolveResult.queryFail e := by
  constructor
  · exact runLoop_cons_err q fuel y rest rootO m tr e hq
  · unfold account_structure
    rw [runLoop_cons_err q fuel y [] none [] [] e hq]

/-- Witness for C9 at a concrete input: a capability that always fails. -/
theorem c9_query_failure_aborts_witness :
    runLoop (fun _ => Except.error ("boom")) 1 [7] none [] [] =
      LoopResult.fail ("boom") ∧
    account_structure (fun _ => Except.error ("boom")) 7 1 3 =
      ResolveResult.queryFail ("boom") :=
  c9_query_failure_aborts (fun _ => Except.error ("boom")) ("boom") 7 [] none [] []
    0 3 rfl

/-- C10: over a finite universe of account ids closed under the query
capability, with every query returning a finite row sequence, the
traversal loop terminates: some fuel suffices to drain the work queue
(the loop returns `ok`, which is only produced on an empty queue). -/
theorem c10_loop_terminates (q : Nat → Except String (List CustomerClient))
    (U : Finset Nat) (root : Nat) (hroot : root ∈ U)
    (hok : ∀ y ∈ U, ∃ rows, q y = Except.ok rows)
    (hqU : ∀ y ∈ U, ∀ rows r, q y = Except.ok rows → r ∈ rows → r.id ∈ U) :
    LoopTerminates q [root] none [] [] := by
  apply termGoal_all q U hok hqU (unkeyedCount U []) (keyedCount [] [root]) 1
    [root] none [] []
  · intro x hx
    rw [List.mem_singleton.mp hx]
    exact hroot
  · intro x hx
    simp [hasKey] at hx
  · exact le_refl _
  · exact le_refl _
  · simp

/-- Witness for C10 at a concrete input: the one-account universe with
empty responses. -/
theorem c10_loop_terminates_witness :
    LoopTerminates (fun _ => Except.ok []) [0] none [] [] :=
  c10_loop_terminates (fun _ => Except.ok []) {0} 0 (by decide)
    (fun _ _ => ⟨[], rfl⟩)
    (by
      intro y _ rows r h hr
      injection h with h
      subst h
      cases hr)

/-- C1 (counterexample): on the spec's scenario (root `100` with children
`101` manager and `102`, `101` with children `201`, `202`) the emitted
order is `[100, 101, 201, 202, 102]` but the stored levels are
`[0, 1, 1, 1, 1]`, not `[0, 1, 2, 2, 1]` as the claim states: the code
stores the query-relative level of each row, never the recursion depth. -/
theorem c1_levels_counterexample :
    (resolvedAccounts (account_structure qC1 100 20 20)).map
        (List.map GAccount.level) = some [0, 1, 1, 1, 1] ∧
    ([0, 1, 1, 1, 1] : List Nat) ≠ [0, 1, 2, 2, 1] := by
  constructor
  · decide
  · decide

/-- C1 (amended): the scenario emits the accounts in order
`[100, 101, 201, 202, 102]` with stored levels `[0, 1, 1, 1, 1]` (every
non-root record keeps the level `1` reported by the query that discovered
it). -/
theorem c1_scenario_amended :
    (resolvedAccounts (account_structure qC1 100 20 20)).map
        (List.map GAccount.id) = some [100, 101, 201, 202, 102] ∧
    (resolvedAccounts (account_structure qC1 100 20 20)).map
        (List.map GAccount.level) = some [0, 1, 1, 1, 1] := by
  constructor
  · decide
  · decide

/-- C3 (counterexample): a capability whose response for the requested
root `100` carries no level-0 echo, while the query for child `101`
echoes `101` at level 0.  Resolution completes without error, yet the
first (and only) emitted node has id `101`, not the requested root
`100`. -/
theorem c3_first_node_counterexample :
    account_structure qC3 100 20 20 =
      ResolveResult.ok [mkGAccount (row 101 0 false)] ∧
    (mkGAccount (row 101 0 false)).id ≠ 100 := by
  constructor
  · decide
  · decide

/-- C3 (amended): if the response for the requested root contains a
level-0 row and the first such row carries the root's id, then a
resolution that completes without error emits first a node of level 0
whose identifier is the requested root id. -/
theorem c3_root_presence_amended (q : Nat → Except String (List CustomerClient))
    (root fuel pfuel : Nat) (rows0 : List CustomerClient) (r0 : CustomerClient)
    (l : List GAccount)
    (hq : q root = Except.ok rows0)
    (hfind : rows0.find? (fun r => r.level == 0) = some r0)
    (hid : r0.id = root)
    (hrun : account_structure q root fuel pfuel = ResolveResult.ok l) :
    ∀ a, l.head? = some a → a.id = root ∧ a.level = 0 := by
  obtain ⟨m, tr, rc, hloop, hparse⟩ := account_structure_ok q root fuel pfuel l hrun
  cases fuel with
  | zero => rw [runLoop_zero_cons] at hloop; cases hloop
  | succ fuel =>
      have hr0 : some rc = some r0 :=
        runLoop_first_root q root fuel [] [] rows0 r0 (some rc) m tr hq hfind hloop
      injection hr0 with hr0
      subst hr0
      have hhead := parseNode_head m pfuel rc l hparse
      intro a ha
      rw [hhead] at ha
      injection ha with ha
      subst ha
      refine ⟨hid, ?_⟩
      have := List.find?_some hfind
      simpa using this

/-- Witness for C3 (amended) at a concrete input: root `1` echoing itself. -/
theorem c3_root_presence_amended_witness :
    (mkGAccount (row 1 0 true)).id = 1 ∧ (mkGAccount (row 1 0 true)).level = 0 :=
  c3_root_presence_amended qW3 1 5 5 [row 1 0 true] (row 1 0 true)
    [mkGAccount (row 1 0 true)] rfl (by decide) rfl (by decide)
    (mkGAccount (row 1 0 true)) rfl

/-- C4 (counterexample): on the three-level chain `300 → 301 → 302`, node
`302` is emitted by its parent `301`; both carry stored level `1`, so the
non-root node `302` violates `level = parent level + 1` (which would
require `2`). -/
theorem c4_depth_counterexample :
    (resolvedAccounts (account_structure qC4 300 20 20)).map
        (List.map GAccount.id) = some [300, 301, 302] ∧
    (resolvedAccounts (account_structure qC4 300 20 20)).map
        (List.map GAccount.level) = some [0, 1, 1] ∧
    (1 : Nat) ≠ 1 + 1 := by
  refine ⟨by decide, by decide, by decide⟩

/-- C4 (amended): under the interface model (every returned row has level
at most 1), every non-root emitted node has stored level exactly 1 — the
level reported by the query that discovered it — rather than its emitter
parent's level plus one. -/
theorem c4_levels_amended (q : Nat → Except String (List CustomerClient))
    (root fuel pfuel : Nat) (l : List GAccount)
    (hmodel : ∀ y rows r, q y = Except.ok rows → r ∈ rows → r.level ≤ 1)
    (hrun : account_structure q root fuel pfuel = ResolveResult.ok l) :
    ∀ a ∈ l.tail, a.level = 1 := by
  obtain ⟨m, tr, rc, hloop, hparse⟩ := account_structure_ok q root fuel pfuel l hrun
  have hgood : goodMap q m :=
    runLoop_goodMap q fuel [root] none [] [] (some rc) m tr (goodMap_nil q) hloop
  intro a ha
  cases pfuel with
  | zero => rw [parseNode_zero] at hparse; cases hparse
  | succ f =>
      obtain ⟨subs, hpl, rfl⟩ := parseNode_succ_some m f rc l hparse
      have ha' : a ∈ subs.flatten := by simpa using ha
      have level_of : ∀ r : CustomerClient, rowInMap m r → a = mkGAccount r →
          a.level = 1 := by
        intro r hrm haeq
        obtain ⟨p, hp⟩ := hrm
        obtain ⟨hnz, y, rows, hqy, hmem⟩ := hgood p r hp
        have hle := hmodel y rows r hqy hmem
        have : a.level = r.level := by rw [haeq]; rfl
        omega
      rcases parseList_mem_aux m f (parseNode_mem m f) (childrenAt m rc.id)
          subs a hpl ha' with ⟨c', hc', haeq⟩ | ⟨r, hrm, haeq⟩
      · exact level_of c' ⟨rc.id, hc'⟩ haeq
      · exact level_of r hrm haeq

/-- Witness for C4 (amended) at a concrete input: root `1` with child `2`. -/
theorem c4_levels_amended_witness :
    (mkGAccount (row 2 1 false)).level = 1 :=
  c4_levels_amended qW4 1 5 5
    [mkGAccount (row 1 0 true), mkGAccount (row 2 1 false)]
    (by
      intro y rows r hq hr
      unfold qW4 at hq
      by_cases hy : y = 1
      · rw [if_pos hy] at hq
        injection hq with hq
        subst hq
        rcases List.mem_cons.mp hr with h | h
        · rw [h]; decide
        · rcases List.mem_singleton.mp h with rfl
          decide
      · rw [if_neg hy] at hq
        injection hq with hq
        subst hq
        cases hr)
    (by decide) (mkGAccount (row 2 1 false)) (by decide)

/-- C5 (code violates the stated invariant): a response listing child
`901` twice under root `900` completes without error and emits
`[900, 901, 901]` — the emitted list contains duplicate identifiers,
contradicting the uniqueness invariant. -/
theorem c5_duplicate_ids_failing :
    (resolvedAccounts (account_structure qC5 900 10 10)).map
        (List.map GAccount.id) = some [900, 901, 901] ∧
    ¬ ([900, 901, 901] : List Nat).Nodup := by
  constructor
  · decide
  · decide

/-- C6 (counterexample): `qC6` never returns any level-0 row whose id is
the requested root `500` (the only level-0 row ever returned describes
`501`), yet the resolution completes without error — the code only
checks that some level-0 row was seen, never its id. -/
theorem c6_noroot_counterexample :
    account_structure qC6 500 20 20 =
      ResolveResult.ok [mkGAccount (row 501 0 false)] ∧
    ∀ y rows r, qC6 y = Except.ok rows → r ∈ rows →
      ¬ (r.level = 0 ∧ r.id = 500) := by
  refine ⟨by decide, ?_⟩
  intro y rows r hq hr
  unfold qC6 at hq
  by_cases h5 : y = 500
  · rw [if_pos h5] at hq
    injection hq with hq
    subst hq
    rcases List.mem_singleton.mp hr with rfl
    decide
  · rw [if_neg h5] at hq
    by_cases h6 : y = 501
    · rw [if_pos h6] at hq
      injection hq with hq
      subst hq
      rcases List.mem_singleton.mp hr with rfl
      decide
    · rw [if_neg h6] at hq
      injection hq with hq
      subst hq
      cases hr

/-- C6 (amended): if no successful response ever contains a level-0 row
at all, a traversal that drains its queue captures no root and
`account_structure` takes the `ValueError` branch (`noRoot`), returning
no list. -/
theorem c6_noroot_amended (q : Nat → Except String (List CustomerClient))
    (root fuel pfuel : Nat) (rootO : Option CustomerClient) (m : ChildMap)
    (tr : List Nat)
    (hq : ∀ y rows r, q y = Except.ok rows → r ∈ rows → r.level ≠ 0)
    (hloop : runLoop q fuel [root] none [] [] = LoopResult.ok rootO m tr) :
    rootO = none ∧ account_structure q root fuel pfuel = ResolveResult.noRoot := by
  have h0 : rootO = none :=
    runLoop_fst_none q hq fuel [root] [] [] rootO m tr hloop
  subst h0
  refine ⟨rfl, ?_⟩
  unfold account_structure
  rw [hloop]

/-- Witness for C6 (amended) at a concrete input: empty responses. -/
theorem c6_noroot_amended_witness :
    (none : Option CustomerClient) = none ∧
    account_structure (fun _ => Except.ok []) 3 1 1 = ResolveResult.noRoot :=
  c6_noroot_amended (fun _ => Except.ok []) 3 1 1 none [] [3]
    (by
      intro y rows r h hr
      injection h with h
      subst h
      cases hr)
    rfl

/-- C7 (counterexample): manager `101` is reported as a child by both
`100` and `102`; its own query returns no children, so it is never
recorded as a parent key, is enqueued again while processing `102`, and
is expanded (queried) twice: the trace of queried ids is
`[100, 101, 102, 101]`. -/
theorem c7_double_expansion_counterexample :
    traceOf (runLoop qC7 10 [100] none [] []) = some [100, 101, 102, 101] ∧
    countOcc 101 [100, 101, 102, 101] = 2 := by
  constructor
  · decide
  · decide

/-- C7 (amended): during the processing of one response, the only ids
newly appended to the work queue are ids of child rows that are managers
at level 1 and were not recorded as parent keys in the mapping when they
were checked; in particular an id that is a parent key at the start of
the step is never newly enqueued during it.  (An id that is never
recorded as a key — one whose own query returns no children — may still
be enqueued, and hence expanded, more than once.) -/
theorem c7_enqueue_guard_amended (y : Nat) (rows : List CustomerClient)
    (rootO : Option CustomerClient) (m : ChildMap) (qu : List Nat) (x : Nat)
    (hx : x ∈ (processRows y rows (rootO, m, qu)).2.2) :
    x ∈ qu ∨ (hasKey m x = false ∧
      rows.any (fun r => r.id == x && r.manager && (r.level == 1)) = true) := by
  obtain ⟨app, happ, hprop⟩ := processRows_queue_spec y rows rootO m qu
  rw [happ] at hx
  rcases List.mem_append.mp hx with hx | hx
  · exact Or.inl hx
  · exact Or.inr (hprop x hx)

/-- Witness for C7 (amended) at a concrete input: processing the
response of `1` enqueues the manager child `2`. -/
theorem c7_enqueue_guard_amended_witness :
    2 ∈ ([] : List Nat) ∨ (hasKey ([] : ChildMap) 2 = false ∧
      ([row 2 1 true].any (fun r => r.id == 2 && r.manager && (r.level == 1)) =
        true)) :=
  c7_enqueue_guard_amended 1 [row 2 1 true] none [] [] 2 (by decide)

/-- C8: a child id reported twice for the same parent within one query
response is appended twice to that parent's child list, and the
flattening therefore emits that child's record (at least) twice. -/
theorem c8_duplicate_rows_emitted_twice (y : Nat) (rows : List CustomerClient)
    (rootO : Option CustomerClient) (m : ChildMap) (qu : List Nat)
    (d p : CustomerClient) (f : Nat) (out : List GAccount)
    (hlev : d.level ≠ 0) (hcnt : countOcc d rows = 2)
    (hempty : childrenAt m y = []) (hpid : p.id = y)
    (hparse : parseNode (processRows y rows (rootO, m, qu)).2.1 (f + 1) p =
      some out) :
    countOcc d (childrenAt (processRows y rows (rootO, m, qu)).2.1 y) = 2 ∧
    2 ≤ countOcc (mkGAccount d) out := by
  have hch : childrenAt (processRows y rows (rootO, m, qu)).2.1 y =
      childrenAt m y ++ rows.filter (fun r => r.level != 0) :=
    processRows_childrenAt_self y rows rootO m qu
  have hcount : countOcc d (childrenAt (processRows y rows (rootO, m, qu)).2.1 y) =
      2 := by
    rw [hch, hempty, List.nil_append,
      countOcc_filter_of_true d _ rows (by simpa using hlev)]
    exact hcnt
  refine ⟨hcount, ?_⟩
  obtain ⟨subs, hpl, rfl⟩ := parseNode_succ_some _ f p out hparse
  have hheads : List.Forall₂ (fun ch (sub : List GAccount) =>
      sub.head? = some (mkGAccount ch))
      (childrenAt (processRows y rows (rootO, m, qu)).2.1 p.id) subs :=
    List.Forall₂.imp (fun a b hab => parseNode_head _ f a b hab)
      (parseList_forall2 _ f _ subs hpl)
  have hle := countOcc_flatten_heads d _ subs hheads
  rw [hpid, hcount] at hle
  have hc : countOcc (mkGAccount d) (mkGAccount p :: subs.flatten) =
      (if mkGAccount p = mkGAccount d then 1 else 0) +
        countOcc (mkGAccount d) subs.flatten := rfl
  omega

/-- Witness for C8 at a concrete input: parent `7` reporting child `8`
twice; the flattening emits `8` twice. -/
theorem c8_duplicate_rows_emitted_twice_witness :
    countOcc (row 8 1 false)
      (childrenAt (processRows 7 [row 8 1 false, row 8 1 false]
        (none, [], [])).2.1 7) = 2 ∧
    2 ≤ countOcc (mkGAccount (row 8 1 false))
      [mkGAccount (row 7 0 true), mkGAccount (row 8 1 false),
        mkGAccount (row 8 1 false)] :=
  c8_duplicate_rows_emitted_twice 7 [row 8 1 false, row 8 1 false] none [] []
    (row 8 1 false) (row 7 0 true) 1
    [mkGAccount (row 7 0 true), mkGAccount (row 8 1 false),
      mkGAccount (row 8 1 false)]
    (by decide) (by decide) rfl rfl (by decide)
